import Mathlib

/-!
Verification of the zedis connection/scanning/typed-value engine.

This file shallowly embeds the state-mutation logic of the zedis client
(`src/states/server.rs`, `src/states/server/{hash,set,zset}.rs`,
`src/connection/ssh_tunnel.rs`) in Lean and proves the spec's testable
properties about it.

Modelling conventions:
* Rust `usize`/`u64` counters are modelled as `Nat` (no claim depends on
  overflow behaviour); `f64` zset scores are modelled as `ℚ`, since the code
  only stores and compares them.
* Rust `String` keys are modelled as `String`; for the key-trie claims the
  character sequence of a key is modelled as `List Char` so that the
  `split(":")` / concatenation reasoning can be carried out exactly.
* Each async callback is embedded as a pure function from the state it reads
  and the command reply it receives to the state it writes, plus the control
  decision it makes (for example "auto-continue the scan").
* The record types `RedisHashValue`, `RedisSetValue` and `RedisZsetValue`
  live in the `states/server/value` module, which is not part of the sources;
  their fields are reconstructed from every use in `hash.rs`, `set.rs` and
  `zset.rs` and from the spec's description of `TypedValueState`.
-/

namespace Zedis

/-- Sort order of a zset editor (`SortOrder` in `states/server/value`),
used by `zset.rs` to choose between `ZRANGE` and `ZREVRANGE` and to direct
the local insertion position. -/
inductive SortOrder where
  | asc
  | desc
deriving DecidableEq, Repr

/-- Local state of a loaded zset (`RedisZsetValue`): store-reported
cardinality, loaded `(member, score)` buffer, sort order, optional filter
keyword, scan cursor and completion flag. Fields reconstructed from their
uses in `zset.rs`. -/
structure RedisZsetValue where
  size : Nat
  values : List (String × ℚ)
  sort_order : SortOrder
  keyword : Option String
  cursor : Nat
  done : Bool
deriving DecidableEq, Repr

/-- Local state of a loaded set (`RedisSetValue`): store-reported
cardinality, loaded member buffer, optional filter keyword, scan cursor and
completion flag. Fields reconstructed from their uses in `set.rs`. -/
structure RedisSetValue where
  size : Nat
  values : List String
  keyword : Option String
  cursor : Nat
  done : Bool
deriving DecidableEq, Repr

/-- Local state of a loaded hash (`RedisHashValue`): store-reported field
count, loaded `(field, value)` buffer, optional filter keyword, scan cursor
and completion flag. Fields reconstructed from their uses in `hash.rs`. -/
structure RedisHashValue where
  size : Nat
  values : List (String × String)
  keyword : Option String
  cursor : Nat
  done : Bool
deriving DecidableEq, Repr

/-- One entry of the bounded error log (`ErrorMessage` in `server.rs`). -/
structure ErrorMessage where
  category : String
  message : String
  created_at : Nat
deriving DecidableEq, Repr

/-- Scan-related fields of `ZedisServerState` (`server.rs`). `keys` is the
flat key map in insertion order; only key membership and count matter here,
so it is carried as a duplicate-free list (the `AHashMap` keys). -/
structure ScanState where
  server : String
  keyword : String
  cursors : Option (List Nat)
  scaning : Bool
  scan_completed : Bool
  scan_times : Nat
  keys : List String
deriving DecidableEq, Repr

/-- `ZedisServerState::extend_keys`: insert each scanned key that is not
already present (`entry(key).or_insert`), keeping existing entries. -/
def extend_keys (keys : List String) (found : List String) : List String :=
  found.foldl (fun acc k => if k ∈ acc then acc else acc ++ [k]) keys

/-- Callback of `ZedisServerState::scan_keys` (`server.rs` lines 562-586),
embedded as a step function. Input: the state at spawn time and the batch
result (per-shard cursors and found keys, or an error). Output: the updated
state and whether the engine immediately auto-continues by calling
`scan_keys` again. `max` is `(scan_times + 1) * DEFAULT_SCAN_RESULT_MAX`
with `DEFAULT_SCAN_RESULT_MAX = 1000`. -/
def scan_keys_callback (st : ScanState)
    (result : Except Unit (List Nat × List String)) : ScanState × Bool :=
  let max := (st.scan_times + 1) * 1000
  let st' :=
    match result with
    | .ok (cursors, found) =>
      let st₁ :=
        if cursors.sum = 0 then
          { st with scan_completed := true, cursors := none }
        else
          { st with cursors := some cursors }
      { st₁ with keys := extend_keys st₁.keys found }
    | .error _ => { st with cursors := none }
  if st'.cursors.isSome && decide (st'.keys.length < max) then
    (st', true)
  else
    ({ st' with scaning := false }, false)

/-- `ZedisServerState::add_error_message` (`server.rs` lines 307-317): when
the log already holds at least 10 entries remove the oldest (index 0), then
append the new entry. `now` stands for `unix_ts()`. -/
def add_error_message (log : List ErrorMessage) (category message : String)
    (now : Nat) : List ErrorMessage :=
  let log' := if log.length ≥ 10 then log.drop 1 else log
  log' ++ [⟨category, message, now⟩]

/-- Completion step of `ZedisServerState::spawn` (`server.rs` lines 326-351):
when the async operation returned an error, an entry tagged with the task
name is logged; in both cases the callback is then invoked with the
untouched result. Returns the updated log and the result handed to the
callback. -/
def spawn_complete {T : Type} (log : List ErrorMessage) (name : String)
    (result : Except String T) (now : Nat) :
    List ErrorMessage × Except String T :=
  match result with
  | .error e => (add_error_message log name e now, .error e)
  | .ok v => (log, .ok v)

/-- Rust `Vec::retain`, keeping the elements satisfying the predicate. -/
def listRetain {α : Type} (p : α → Bool) (l : List α) : List α := l.filter p

/-- Callback of `ZedisServerState::remove_hash_value` (`hash.rs` lines
297-320) on reply `Ok count` (the `HDEL` removed-count): only when the count
is nonzero, drop the field from the buffer and decrease the size by the
count. -/
def remove_hash_value_callback (h : RedisHashValue) (remove_field : String)
    (count : Nat) : RedisHashValue :=
  if count ≠ 0 then
    { h with
      values := listRetain (fun it => it.1 != remove_field) h.values,
      size := h.size - count }
  else
    h

/-- Callback of `ZedisServerState::remove_zset_value` (`zset.rs` lines
471-489) on reply `Ok ()`: the `ZREM` removed-count is discarded by the
async operation (`let _: () = ...`), the member is dropped from the buffer
and the size is decremented by one unconditionally. -/
def remove_zset_value_callback (z : RedisZsetValue) (remove_value : String) :
    RedisZsetValue :=
  { z with
    values := listRetain (fun it => it.1 != remove_value) z.values,
    size := z.size - 1 }

/-- Callback of `ZedisServerState::remove_set_value` (`set.rs` lines
334-353) on reply `Ok count` (the `SREM` removed-count). -/
def remove_set_value_callback (s : RedisSetValue) (remove_value : String)
    (count : Nat) : RedisSetValue :=
  { s with
    size := s.size - count,
    values := listRetain (fun v => v != remove_value) s.values }

/-- Callback of `ZedisServerState::add_set_value` (`set.rs` lines 151-184)
on reply `Ok count` (the `SADD` added-count): a zero count only emits a
warning notification; a nonzero count increases the size by the count and
appends the member to the buffer when the scan is done and the member is
not already shown. -/
def add_set_value_callback (s : RedisSetValue) (new_value : String)
    (count : Nat) : RedisSetValue :=
  if count = 0 then
    s
  else
    let values' :=
      if s.done ∧ ¬ new_value ∈ s.values then s.values ++ [new_value]
      else s.values
    { s with size := s.size + count, values := values' }

/-- Rust loop in `add_or_update_hash_value`: find the first buffer entry
with the given field, replace its value, then break. -/
def replaceFirstValue : List (String × String) → String → String →
    List (String × String)
  | [], _, _ => []
  | it :: rest, field, v =>
    if it.1 = field then (it.1, v) :: rest
    else it :: replaceFirstValue rest field v

/-- Callback of `ZedisServerState::add_or_update_hash_value` (`hash.rs`
lines 186-228) on reply `Ok count` (the `HSET` created-count): the size
grows by the count (1 for a new field, 0 for an update) and the first
matching buffer entry, if any, gets the new value. -/
def add_or_update_hash_value_callback (h : RedisHashValue)
    (new_field new_value : String) (count : Nat) : RedisHashValue :=
  { h with
    size := h.size + count,
    values := replaceFirstValue h.values new_field new_value }

/-- Step of the callback of `ZedisServerState::load_more_hash_value`
(`hash.rs` lines 364-396) on reply `Ok (new_cursor, new_values)`: store the
cursor, mark done when it returned to 0, append the batch, and decide
whether to immediately trigger exactly one more `load_more_hash_value`
call (`should_load_more`). -/
def load_more_hash_step (h : RedisHashValue) (new_cursor : Nat)
    (new_values : List (String × String)) : RedisHashValue × Bool :=
  let done' := if new_cursor = 0 then true else h.done
  let values' :=
    if new_values.isEmpty then h.values else h.values ++ new_values
  let h' := { h with cursor := new_cursor, done := done', values := values' }
  (h', !h'.done && decide (h'.values.length < 50))

/-- Step of the callback of `ZedisServerState::load_more_set_value`
(`set.rs` lines 256-293) on reply `Ok (new_cursor, new_values)`: as for the
hash, except that the single automatic continuation is additionally gated
on a nonempty filter keyword (`keyword_clone`). -/
def load_more_set_step (s : RedisSetValue) (new_cursor : Nat)
    (new_values : List String) : RedisSetValue × Bool :=
  let keyword_clone := s.keyword.getD ""
  let done' := if new_cursor = 0 then true else s.done
  let values' :=
    if new_values.isEmpty then s.values else s.values ++ new_values
  let s' := { s with cursor := new_cursor, done := done', values := values' }
  (s', !keyword_clone.isEmpty && (!s'.done && decide (s'.values.length < 50)))

/-- Redis `LRANGE key start stop` on the abstract list value: the elements
whose 0-based rank lies in `[start, stop]`, both ends inclusive and clamped
to the list (only non-negative arguments occur in this client). -/
def lrange (l : List String) (start stop : Nat) : List String :=
  (l.drop start).take (stop + 1 - start)

/-- `get_redis_list_value` (`server.rs` lines 158-178): issues
`LRANGE key offset count`, so the `count` argument is sent as the stop rank
of the range. -/
def get_redis_list_value (l : List String) (offset count : Nat) :
    List String :=
  lrange l offset count

/-- First load of a list key (`select_key`, `server.rs` lines 732-737):
`LLEN` for the authoritative size, then `get_redis_list_value(key, 0, 100)`
for the initial page. -/
def first_load_list (l : List String) : Nat × List String :=
  (l.length, get_redis_list_value l 0 100)

/-- One round of `ZedisServerState::load_more_list_value` (`server.rs`
lines 815-855): with `offset` the loaded-buffer length, do nothing when
`offset ≥ size`, otherwise fetch `get_redis_list_value(key, offset, 100)`
and append it to the buffer. -/
def load_more_list_step (size : Nat) (buffer : List String)
    (l : List String) : List String :=
  let offset := buffer.length
  if offset ≥ size then buffer
  else buffer ++ get_redis_list_value l offset 100

/-- Rust slice `partition_point`: binary search for the first element not
satisfying the predicate. On a partitioned slice — the only way the source
uses it, with a buffer sorted by the active sort order — this equals the
length of the maximal prefix satisfying the predicate, which is the
executable characterization used here. -/
def partitionPoint {α : Type} (pred : α → Bool) (l : List α) : Nat :=
  (l.takeWhile pred).length

/-- Rust loop in `add_or_update_zset_value`: find the first buffer entry
with the given member name, replace it by `(name, score)`, then break. -/
def replaceFirstScore : List (String × ℚ) → String → ℚ →
    List (String × ℚ)
  | [], _, _ => []
  | it :: rest, name, score =>
    if it.1 = name then (name, score) :: rest
    else it :: replaceFirstScore rest name score

/-- Insertion predicate of `add_or_update_zset_value`: an entry sorts
strictly before the new score under the active sort order. -/
def zsetBefore (o : SortOrder) (score : ℚ) (it : String × ℚ) : Bool :=
  if o = SortOrder.asc then decide (it.2 < score) else decide (it.2 > score)

/-- Callback of `ZedisServerState::add_or_update_zset_value` (`zset.rs`
lines 241-297) on reply `Ok count` (the `ZADD` added-count): the size grows
by the count; an existing member's entry is replaced in place; a new member
is inserted, only when no filter keyword is active, at the
`partition_point` of the current sort order — except that an insertion
point equal to the buffer length is skipped. -/
def add_or_update_zset_value_callback (z : RedisZsetValue)
    (new_value : String) (score : ℚ) (count : Nat) : RedisZsetValue :=
  let size' := z.size + count
  if z.values.any (fun it => it.1 == new_value) then
    { z with size := size',
             values := replaceFirstScore z.values new_value score }
  else if z.keyword = none then
    let index := partitionPoint (zsetBefore z.sort_order score) z.values
    if index ≠ z.values.length then
      { z with size := size',
               values := z.values.insertIdx index (new_value, score) }
    else
      { z with size := size' }
  else
    { z with size := size' }

/-- Authentication mechanisms appearing in `new_ssh_session`
(`ssh_tunnel.rs` lines 227-344). -/
inductive AuthMethod where
  | publickeyFile
  | publickeyInline
  | password
  | agent
deriving DecidableEq, Repr

/-- Errors surfaced by `new_ssh_session`: a configuration/`Error::Invalid`
error, an authentication failure, or a propagated transport/key error. -/
inductive SshError where
  | invalid (msg : String)
  | authFailed
  | keyError
deriving DecidableEq, Repr

/-- Outcome of one `authenticate_publickey_with` agent attempt: `success`
and `failure` are the two `AuthResult`s, `err` is a propagated error that
the loop logs and skips. -/
inductive AgentOutcome where
  | success
  | failure
  | err
deriving DecidableEq, Repr

/-- One identity offered by the SSH agent, with whether it is an RSA key
and the outcome its authentication attempt would have. -/
structure AgentIdentity where
  is_rsa : Bool
  outcome : AgentOutcome
deriving DecidableEq, Repr

/-- Environment oracle for `new_ssh_session`: everything the function
observes from the filesystem, the network and the agent. -/
structure SshEnv where
  /-- `Path::new(&key).exists()` for the configured key string. -/
  key_is_file : Bool
  /-- `load_secret_key` / `decode_secret_key` succeeds. -/
  key_load_ok : Bool
  /-- the single `authenticate_publickey` call succeeds. -/
  publickey_ok : Bool
  /-- the single `authenticate_password` call succeeds. -/
  password_ok : Bool
  /-- compiled under `#[cfg(unix)]`. -/
  unix : Bool
  /-- `AgentClient::connect_env` succeeds. -/
  agent_connect_ok : Bool
  /-- identities returned by `request_identities`, in order. -/
  identities : List AgentIdentity
deriving DecidableEq, Repr

/-- Authentication phase of `new_ssh_session` (`ssh_tunnel.rs` lines
253-341), as a function of the configured key and password strings and the
environment. Returns the overall result together with the list of
authentication mechanisms the function engages. The branch structure is
the source's: a nonempty key selects public-key authentication (from disk
when the key string is an existing path, else inline) and nothing else;
otherwise a nonempty password selects password authentication; otherwise
the unix branch tries the SSH agent, iterating all identities until one
succeeds, and the non-unix branch returns a hard configuration error. -/
def new_ssh_session (key password : String) (env : SshEnv) :
    Except SshError Unit × List AuthMethod :=
  if key ≠ "" then
    let m := if env.key_is_file then AuthMethod.publickeyFile
             else AuthMethod.publickeyInline
    if env.key_load_ok = false then (.error .keyError, [m])
    else if env.publickey_ok then (.ok (), [m])
    else (.error .authFailed, [m])
  else if password ≠ "" then
    if env.password_ok then (.ok (), [.password])
    else (.error .authFailed, [.password])
  else if env.unix = false then
    (.error (.invalid "Ssh agent is not supported on this platform"), [])
  else if env.agent_connect_ok = false then
    (.error (.invalid "Failed to connect to ssh agent"), [.agent])
  else if env.identities.any (fun i => i.outcome == AgentOutcome.success) then
    (.ok (), [.agent])
  else if env.identities.any (fun i => i.outcome == AgentOutcome.failure) then
    (.error .authFailed, [.agent])
  else
    (.error (.invalid "Ssh authentication failed"), [.agent])

/-- Modelled from the spec: the authentication sequence the claim
describes — public key first (when a key is configured), then the SSH
agent (when one is reachable), then the password (when configured), each
configured mechanism being attempted until the first success. The value is
the order of attempts engaged when no earlier mechanism succeeds. -/
def spec_auth_attempt_order (key password : String) (key_is_file : Bool)
    (agent_available : Bool) : List AuthMethod :=
  (if key ≠ "" then
    [if key_is_file then AuthMethod.publickeyFile
     else AuthMethod.publickeyInline]
   else []) ++
  (if agent_available then [AuthMethod.agent] else []) ++
  (if password ≠ "" then [AuthMethod.password] else [])

/-- Pairwise order of a zset buffer under the active sort order: ascending
means nondecreasing scores, descending means nonincreasing scores. -/
def zsetSorted (o : SortOrder) (l : List (String × ℚ)) : Prop :=
  match o with
  | .asc => l.Pairwise (fun a b => a.2 ≤ b.2)
  | .desc => l.Pairwise (fun a b => b.2 ≤ a.2)

/-- Character sequence of a Rust string; key splitting and concatenation
are modelled on the character level so that `split(":")` obeys the list
lemmas exactly. -/
abbrev Chars := List Char

/-- Node of the key trie (`KeyNode` in `server.rs`, lines 86-131): full
path, real-key flag, and children keyed by segment short name. The
source's `AHashMap` children are carried in canonical form — an
association list strictly sorted by segment name — so that one trie value
represents exactly one map content. -/
inductive KeyNode where
  | node (full_path : Chars) (is_key : Bool)
      (children : List (Chars × KeyNode))

/-- Full path stored in a trie node. -/
def KeyNode.path : KeyNode → Chars
  | .node p _ _ => p

/-- Sorted-association-list update, the canonical-form counterpart of
`children.entry(part_name).or_insert_with(...)` followed by the recursive
mutation of that entry: `f` receives the existing child when one is
present. -/
def updateA (name : Chars) (f : Option KeyNode → KeyNode) :
    List (Chars × KeyNode) → List (Chars × KeyNode)
  | [] => [(name, f none)]
  | (n, t) :: rest =>
    if name < n then (name, f none) :: (n, t) :: rest
    else if name = n then (name, f (some t)) :: rest
    else (n, t) :: updateA name f rest

/-- Lookup in the children association list. -/
def lookupA (name : Chars) : List (Chars × KeyNode) → Option KeyNode
  | [] => none
  | (n, t) :: rest => if name = n then some t else lookupA name rest

/-- Child full path built by `KeyNode::insert`: the segment alone when the
parent path is empty, otherwise parent path, `:`, segment. -/
def joinSeg (p part : Chars) : Chars :=
  if p = [] then part else p ++ ':' :: part

/-- `KeyNode::insert` (`server.rs` lines 112-130): with no segment left,
mark this node a real key; otherwise descend into the child named by the
next segment, creating it with the joined full path when absent. -/
def insertParts : KeyNode → List Chars → KeyNode
  | .node p _ cs, [] => .node p true cs
  | .node p k cs, part :: rest =>
    .node p k (updateA part
      (fun o => insertParts
        (o.getD (.node (joinSeg p part) false [])) rest) cs)

/-- The empty root node `key_tree` starts from (`server.rs` lines
360-364). -/
def rootNode : KeyNode := .node [] false []

/-- Rust `key.split(":")` on the character sequence of a key. -/
def splitColon (k : Chars) : List Chars := k.splitOn ':'

/-- Trie construction of `ZedisServerState::key_tree` (`server.rs` lines
358-368): insert every key of the flat key set, split on `:`, into an
empty root. -/
def buildTrie (keys : List Chars) : KeyNode :=
  keys.foldl (fun t k => insertParts t (splitColon k)) rootNode

mutual

/-- Segment paths (sequences of child-map keys from this node) of all
descendants marked as real keys. -/
def keyPaths : KeyNode → List (List Chars)
  | .node _ k cs => (if k then [[]] else []) ++ keyPathsChildren cs

/-- Segment paths of real-key nodes below a children list, each prefixed
with its child's segment name. -/
def keyPathsChildren : List (Chars × KeyNode) → List (List Chars)
  | [] => []
  | (n, t) :: rest =>
    (keyPaths t).map (fun q => n :: q) ++ keyPathsChildren rest

end

/-- Flattening the trie back to keys: for every node marked as a real key,
concatenate its path segments with the `:` delimiter. -/
def flattenKeys (t : KeyNode) : List Chars :=
  (keyPaths t).map (List.intercalate [':'])

/-- Strict sortedness of every children list in a trie, the invariant of
the canonical association-list form of the hash maps. -/
inductive SortedNode : KeyNode → Prop where
  | mk (p : Chars) (k : Bool) (cs : List (Chars × KeyNode)) :
      cs.Pairwise (fun a b => a.1 < b.1) →
      (∀ e ∈ cs, SortedNode e.2) →
      SortedNode (.node p k cs)

/-- Every entry of an updated children list is the updated entry or an old
entry. -/
theorem mem_updateA_weak (s : Chars) (f : Option KeyNode → KeyNode) :
    ∀ cs, ∀ e ∈ updateA s f cs, e.1 = s ∨ e ∈ cs := by
  intro cs
  induction cs with
  | nil =>
    intro e he
    simp only [updateA, List.mem_singleton] at he
    exact Or.inl (by rw [he])
  | cons c rest ih =>
    intro e he
    obtain ⟨n, t⟩ := c
    simp only [updateA] at he
    by_cases h1 : s < n
    · rw [if_pos h1] at he
      rcases List.mem_cons.mp he with rfl | he2
      · exact Or.inl rfl
      · exact Or.inr he2
    · rw [if_neg h1] at he
      by_cases h2 : s = n
      · rw [if_pos h2] at he
        rcases List.mem_cons.mp he with rfl | he2
        · exact Or.inl rfl
        · exact Or.inr (List.mem_cons_of_mem _ he2)
      · rw [if_neg h2] at he
        rcases List.mem_cons.mp he with rfl | he2
        · exact Or.inr (List.mem_cons_self _ _)
        · rcases ih e he2 with h | h
          · exact Or.inl h
          · exact Or.inr (List.mem_cons_of_mem _ h)

/-- Updating a sorted children list keeps it sorted. -/
theorem updateA_pairwise (s : Chars) (f : Option KeyNode → KeyNode) :
    ∀ cs, cs.Pairwise (fun a b => a.1 < b.1) →
      (updateA s f cs).Pairwise (fun a b => a.1 < b.1) := by
  intro cs
  induction cs with
  | nil =>
    intro _
    simp [updateA]
  | cons c rest ih =>
    intro hpw
    obtain ⟨n, t⟩ := c
    obtain ⟨hhead, htail⟩ := List.pairwise_cons.mp hpw
    simp only [updateA]
    rcases lt_trichotomy s n with h1 | h1 | h1
    · rw [if_pos h1]
      refine List.pairwise_cons.mpr ⟨?_, hpw⟩
      intro b hb
      rcases List.mem_cons.mp hb with rfl | hb2
      · exact h1
      · exact lt_trans h1 (hhead b hb2)
    · rw [if_neg (by rw [h1]; exact lt_irrefl n), if_pos h1]
      refine List.pairwise_cons.mpr ⟨?_, htail⟩
      intro b hb
      rw [h1]
      exact hhead b hb
    · rw [if_neg (not_lt_of_gt h1), if_neg (ne_of_gt h1)]
      refine List.pairwise_cons.mpr ⟨?_, ih htail⟩
      intro b hb
      rcases mem_updateA_weak s f rest b hb with h | h
      · rw [h]
        exact h1
      · exact hhead b h

/-- A successful children lookup is a membership. -/
theorem lookupA_mem (s : Chars) :
    ∀ cs c, lookupA s cs = some c → (s, c) ∈ cs := by
  intro cs
  induction cs with
  | nil =>
    intro c h
    simp [lookupA] at h
  | cons e rest ih =>
    intro c h
    obtain ⟨n, t⟩ := e
    simp only [lookupA] at h
    by_cases h2 : s = n
    · rw [if_pos h2] at h
      have ht : t = c := by injection h
      rw [h2, ← ht]
      exact List.mem_cons_self _ _
    · rw [if_neg h2] at h
      exact List.mem_cons_of_mem _ (ih c h)

/-- Lookup misses a list whose keys are all larger. -/
theorem lookupA_none_of_forall_gt (s : Chars) :
    ∀ cs, (∀ e ∈ cs, s < e.1) → lookupA s cs = none := by
  intro cs
  induction cs with
  | nil =>
    intro _
    rfl
  | cons e rest ih =>
    intro hall
    obtain ⟨n, t⟩ := e
    have hs : s < n := hall (n, t) (List.mem_cons_self _ _)
    simp only [lookupA, if_neg (ne_of_lt hs)]
    exact ih fun e he => hall e (List.mem_cons_of_mem _ he)

/-- A failed lookup means no entry carries the key. -/
theorem lookupA_none_forall (s : Chars) :
    ∀ cs, lookupA s cs = none → ∀ e ∈ cs, e.1 ≠ s := by
  intro cs
  induction cs with
  | nil =>
    intro _ e he
    simp at he
  | cons c rest ih =>
    intro h e he
    obtain ⟨n, t⟩ := c
    simp only [lookupA] at h
    by_cases h2 : s = n
    · rw [if_pos h2] at h
      exact absurd h (by simp)
    · rw [if_neg h2] at h
      rcases List.mem_cons.mp he with rfl | he2
      · exact fun hh => h2 hh.symm
      · exact ih h e he2

/-- In a sorted children list the lookup finds exactly the member entry. -/
theorem lookupA_of_mem (s : Chars) (c : KeyNode) :
    ∀ cs, cs.Pairwise (fun a b => a.1 < b.1) → (s, c) ∈ cs →
      lookupA s cs = some c := by
  intro cs
  induction cs with
  | nil =>
    intro _ h
    simp at h
  | cons e rest ih =>
    intro hpw hmem
    obtain ⟨n, t⟩ := e
    obtain ⟨hhead, htail⟩ := List.pairwise_cons.mp hpw
    rcases List.mem_cons.mp hmem with heq | h2
    · obtain ⟨h3, h4⟩ := Prod.mk.injEq .. ▸ heq
      simp only [lookupA, if_pos h3]
      rw [h4]
    · have hn : n < s := hhead (s, c) h2
      simp only [lookupA, if_neg (ne_of_gt hn)]
      exact ih htail h2

/-- Entries of a sorted children list after an update: the updated entry
(holding the transformed previous child) or an untouched entry with a
different key. -/
theorem mem_updateA (s : Chars) (f : Option KeyNode → KeyNode) :
    ∀ cs, cs.Pairwise (fun a b => a.1 < b.1) →
      ∀ e ∈ updateA s f cs,
        e = (s, f (lookupA s cs)) ∨ (e ∈ cs ∧ e.1 ≠ s) := by
  intro cs
  induction cs with
  | nil =>
    intro _ e he
    simp only [updateA, List.mem_singleton] at he
    exact Or.inl (by rw [he]; rfl)
  | cons c rest ih =>
    intro hpw e he
    obtain ⟨n, t⟩ := c
    obtain ⟨hhead, htail⟩ := List.pairwise_cons.mp hpw
    simp only [updateA] at he
    rcases lt_trichotomy s n with h1 | h1 | h1
    · rw [if_pos h1] at he
      have hl : lookupA s ((n, t) :: rest) = none := by
        refine lookupA_none_of_forall_gt s _ ?_
        intro e2 he2
        rcases List.mem_cons.mp he2 with rfl | he3
        · exact h1
        · exact lt_trans h1 (hhead e2 he3)
      rcases List.mem_cons.mp he with rfl | he2
      · exact Or.inl (by rw [hl])
      · refine Or.inr ⟨he2, ?_⟩
        rcases List.mem_cons.mp he2 with rfl | he3
        · exact fun hh => (ne_of_lt h1) hh.symm
        · exact fun hh => (ne_of_lt (lt_trans h1 (hhead e he3))) hh.symm
    · rw [if_neg (by rw [h1]; exact lt_irrefl n), if_pos h1] at he
      have hl : lookupA s ((n, t) :: rest) = some t := by
        simp only [lookupA, if_pos h1]
      rcases List.mem_cons.mp he with rfl | he2
      · exact Or.inl (by rw [hl])
      · refine Or.inr ⟨List.mem_cons_of_mem _ he2, ?_⟩
        have h4 : n < e.1 := hhead e he2
        rw [← h1] at h4
        exact ne_of_gt h4
    · rw [if_neg (not_lt_of_gt h1), if_neg (ne_of_gt h1)] at he
      have hl : lookupA s ((n, t) :: rest) = lookupA s rest := by
        simp only [lookupA, if_neg (ne_of_gt h1)]
      rcases List.mem_cons.mp he with rfl | he2
      · exact Or.inr ⟨List.mem_cons_self _ _, ne_of_lt h1⟩
      · rcases ih htail e he2 with h | ⟨h2, h3⟩
        · exact Or.inl (by rw [h, hl])
        · exact Or.inr ⟨List.mem_cons_of_mem _ h2, h3⟩

/-- The updated entry is present after an update of a sorted children
list. -/
theorem self_mem_updateA (s : Chars) (f : Option KeyNode → KeyNode) :
    ∀ cs, cs.Pairwise (fun a b => a.1 < b.1) →
      (s, f (lookupA s cs)) ∈ updateA s f cs := by
  intro cs
  induction cs with
  | nil =>
    intro _
    simp [updateA, lookupA]
  | cons c rest ih =>
    intro hpw
    obtain ⟨n, t⟩ := c
    obtain ⟨hhead, htail⟩ := List.pairwise_cons.mp hpw
    simp only [updateA]
    rcases lt_trichotomy s n with h1 | h1 | h1
    · rw [if_pos h1]
      have hl : lookupA s ((n, t) :: rest) = none := by
        refine lookupA_none_of_forall_gt s _ ?_
        intro e2 he2
        rcases List.mem_cons.mp he2 with rfl | he3
        · exact h1
        · exact lt_trans h1 (hhead e2 he3)
      rw [hl]
      exact List.mem_cons_self _ _
    · rw [if_neg (by rw [h1]; exact lt_irrefl n), if_pos h1]
      have hl : lookupA s ((n, t) :: rest) = some t := by
        simp only [lookupA, if_pos h1]
      rw [hl]
      exact List.mem_cons_self _ _
    · rw [if_neg (not_lt_of_gt h1), if_neg (ne_of_gt h1)]
      have hl : lookupA s ((n, t) :: rest) = lookupA s rest := by
        simp only [lookupA, if_neg (ne_of_gt h1)]
      rw [hl]
      exact List.mem_cons_of_mem _ (ih htail)

/-- Entries with a different key survive an update untouched. -/
theorem mem_updateA_of_ne (s : Chars) (f : Option KeyNode → KeyNode) :
    ∀ cs, ∀ e ∈ cs, e.1 ≠ s → e ∈ updateA s f cs := by
  intro cs
  induction cs with
  | nil =>
    intro e he
    simp at he
  | cons c rest ih =>
    intro e he hne
    obtain ⟨n, t⟩ := c
    simp only [updateA]
    by_cases h1 : s < n
    · rw [if_pos h1]
      exact List.mem_cons_of_mem _ he
    · rw [if_neg h1]
      by_cases h2 : s = n
      · rw [if_pos h2]
        rcases List.mem_cons.mp he with rfl | he2
        · exact absurd h2.symm hne
        · exact List.mem_cons_of_mem _ he2
      · rw [if_neg h2]
        rcases List.mem_cons.mp he with rfl | he2
        · exact List.mem_cons_self _ _
        · exact List.mem_cons_of_mem _ (ih e he2 hne)

/-- Insertion keeps every children list sorted. -/
theorem insertParts_sorted :
    ∀ (parts : List Chars) (t : KeyNode), SortedNode t →
      SortedNode (insertParts t parts) := by
  intro parts
  induction parts with
  | nil =>
    intro t ht
    cases t with
    | node p k cs =>
      cases ht with
      | mk _ _ _ hpw hall => exact SortedNode.mk p true cs hpw hall
  | cons s rest ih =>
    intro t ht
    cases t with
    | node p k cs =>
      cases ht with
      | mk _ _ _ hpw hall =>
        simp only [insertParts]
        refine SortedNode.mk _ _ _ (updateA_pairwise s _ cs hpw) ?_
        intro e he
        rcases mem_updateA s _ cs hpw e he with heq | ⟨hmem, _⟩
        · rw [heq]
          cases hl : lookupA s cs with
          | none =>
            exact ih _ (SortedNode.mk _ false [] (List.Pairwise.nil)
              (by simp))
          | some c =>
            exact ih _ (hall (s, c) (lookupA_mem s cs c hl))
        · exact hall e hmem

/-- Membership in the flattening of a children list. -/
theorem mem_keyPathsChildren (x : List Chars) :
    ∀ cs, x ∈ keyPathsChildren cs ↔
      ∃ e ∈ cs, ∃ q ∈ keyPaths e.2, x = e.1 :: q := by
  intro cs
  induction cs with
  | nil =>
    simp only [keyPathsChildren]
    constructor
    · intro hx
      exact absurd hx (List.not_mem_nil x)
    · rintro ⟨e, he, _⟩
      exact absurd he (List.not_mem_nil e)
  | cons c rest ih =>
    obtain ⟨n, t⟩ := c
    simp only [keyPathsChildren, List.mem_append, List.mem_map, ih]
    constructor
    · rintro (⟨q, hq, rfl⟩ | ⟨e, he, q, hq, rfl⟩)
      · exact ⟨(n, t), List.mem_cons_self _ _, q, hq, rfl⟩
      · exact ⟨e, List.mem_cons_of_mem _ he, q, hq, rfl⟩
    · rintro ⟨e, he, q, hq, rfl⟩
      rcases List.mem_cons.mp he with rfl | he2
      · exact Or.inl ⟨q, hq, rfl⟩
      · exact Or.inr ⟨e, he2, q, hq, rfl⟩

/-- Membership in the flattening of an updated sorted children list. -/
theorem mem_keyPathsChildren_updateA (x : List Chars) (s : Chars)
    (f : Option KeyNode → KeyNode) (cs : List (Chars × KeyNode))
    (hpw : cs.Pairwise (fun a b => a.1 < b.1)) :
    x ∈ keyPathsChildren (updateA s f cs) ↔
      (∃ q ∈ keyPaths (f (lookupA s cs)), x = s :: q) ∨
      ∃ e ∈ cs, e.1 ≠ s ∧ ∃ q ∈ keyPaths e.2, x = e.1 :: q := by
  rw [mem_keyPathsChildren]
  constructor
  · rintro ⟨e, he, q, hq, rfl⟩
    rcases mem_updateA s f cs hpw e he with heq | ⟨hmem, hne⟩
    · rw [heq]
      rw [heq] at hq
      exact Or.inl ⟨q, hq, rfl⟩
    · exact Or.inr ⟨e, hmem, hne, q, hq, rfl⟩
  · rintro (⟨q, hq, rfl⟩ | ⟨e, he, hne, q, hq, rfl⟩)
    · exact ⟨(s, f (lookupA s cs)), self_mem_updateA s f cs hpw, q, hq, rfl⟩
    · exact ⟨e, mem_updateA_of_ne s f cs e he hne, q, hq, rfl⟩

/-- Effect of one `KeyNode::insert` on the stored segment paths: exactly
the inserted segment sequence is added to the flattening. -/
theorem keyPaths_insertParts :
    ∀ (parts : List Chars) (t : KeyNode), SortedNode t → ∀ x,
      x ∈ keyPaths (insertParts t parts) ↔ x = parts ∨ x ∈ keyPaths t := by
  intro parts
  induction parts with
  | nil =>
    intro t _ x
    cases t with
    | node p k cs =>
      cases k with
      | true => simp [insertParts, keyPaths]
      | false => simp [insertParts, keyPaths]
  | cons s rest ih =>
    intro t ht x
    cases t with
    | node p k cs =>
      cases ht with
      | mk _ _ _ hpw hall =>
        simp only [insertParts, keyPaths, List.mem_append]
        rw [mem_keyPathsChildren_updateA x s _ cs hpw]
        cases hl : lookupA s cs with
        | none =>
          have hne := lookupA_none_forall s cs hl
          have hremain : x ∈ keyPathsChildren cs ↔
              ∃ e ∈ cs, e.1 ≠ s ∧ ∃ q ∈ keyPaths e.2, x = e.1 :: q := by
            rw [mem_keyPathsChildren]
            constructor
            · rintro ⟨e, he, q, hq, rfl⟩
              exact ⟨e, he, hne e he, q, hq, rfl⟩
            · rintro ⟨e, he, _, q, hq, rfl⟩
              exact ⟨e, he, q, hq, rfl⟩
          have hfresh : ∀ q,
              q ∈ keyPaths (insertParts
                (KeyNode.node (joinSeg p s) false []) rest) ↔ q = rest := by
            intro q
            rw [ih _ (SortedNode.mk _ false [] List.Pairwise.nil (by simp))]
            simp [keyPaths, keyPathsChildren]
          simp only [Option.getD_none]
          rw [← hremain]
          constructor
          · rintro (hx | ⟨q, hq, rfl⟩ | hx)
            · exact Or.inr (Or.inl hx)
            · exact Or.inl (by rw [(hfresh q).mp hq])
            · exact Or.inr (Or.inr hx)
          · rintro (rfl | hx | hx)
            · exact Or.inr (Or.inl ⟨rest, (hfresh rest).mpr rfl, rfl⟩)
            · exact Or.inl hx
            · exact Or.inr (Or.inr hx)
        | some c =>
          have hmemc : (s, c) ∈ cs := lookupA_mem s cs c hl
          have hsc : SortedNode c := hall (s, c) hmemc
          simp only [Option.getD_some]
          have hsplit : x ∈ keyPathsChildren cs ↔
              (∃ q ∈ keyPaths c, x = s :: q) ∨
              ∃ e ∈ cs, e.1 ≠ s ∧ ∃ q ∈ keyPaths e.2, x = e.1 :: q := by
            rw [mem_keyPathsChildren]
            constructor
            · rintro ⟨e, he, q, hq, rfl⟩
              by_cases hes : e.1 = s
              · obtain ⟨e1, e2⟩ := e
                simp only at hes
                subst hes
                have h6 : c = e2 := by
                  have h5 := lookupA_of_mem e1 e2 cs hpw he
                  rw [hl] at h5
                  injection h5
                subst h6
                exact Or.inl ⟨q, hq, rfl⟩
              · exact Or.inr ⟨e, he, hes, q, hq, rfl⟩
            · rintro (⟨q, hq, rfl⟩ | ⟨e, he, _, q, hq, rfl⟩)
              · exact ⟨(s, c), hmemc, q, hq, rfl⟩
              · exact ⟨e, he, q, hq, rfl⟩
          rw [hsplit]
          have hins : ∀ q, q ∈ keyPaths (insertParts c rest) ↔
              q = rest ∨ q ∈ keyPaths c := fun q => ih c hsc q
          constructor
          · rintro (hx | ⟨q, hq, rfl⟩ | hx)
            · exact Or.inr (Or.inl hx)
            · rcases (hins q).mp hq with rfl | hq2
              · exact Or.inl rfl
              · exact Or.inr (Or.inr (Or.inl ⟨q, hq2, rfl⟩))
            · exact Or.inr (Or.inr (Or.inr hx))
          · rintro (rfl | hx | ⟨q, hq, rfl⟩ | hx)
            · exact Or.inr (Or.inl ⟨rest, (hins rest).mpr (Or.inl rfl), rfl⟩)
            · exact Or.inl hx
            · exact Or.inr (Or.inl ⟨q, (hins q).mpr (Or.inr hq), rfl⟩)
            · exact Or.inr (Or.inr hx)

/-- Effect of the whole build fold on the stored segment paths. -/
theorem keyPaths_foldl :
    ∀ (keys : List Chars) (t : KeyNode), SortedNode t → ∀ x,
      x ∈ keyPaths
          (keys.foldl (fun acc k => insertParts acc (splitColon k)) t) ↔
        (∃ k ∈ keys, x = splitColon k) ∨ x ∈ keyPaths t := by
  intro keys
  induction keys with
  | nil =>
    intro t _ x
    simp
  | cons k keys ih =>
    intro t ht x
    simp only [List.foldl_cons]
    rw [ih _ (insertParts_sorted _ _ ht) x, keyPaths_insertParts _ _ ht x]
    constructor
    · rintro (⟨k2, hk2, rfl⟩ | rfl | hx)
      · exact Or.inl ⟨k2, List.mem_cons_of_mem _ hk2, rfl⟩
      · exact Or.inl ⟨k, List.mem_cons_self _ _, rfl⟩
      · exact Or.inr hx
    · rintro (⟨k2, hk2, rfl⟩ | hx)
      · rcases List.mem_cons.mp hk2 with rfl | hk3
        · exact Or.inr (Or.inl rfl)
        · exact Or.inl ⟨k2, hk3, rfl⟩
      · exact Or.inr (Or.inr hx)

/-- Pointwise-equal update functions give equal updates. -/
theorem updateA_congr (s : Chars) (f g : Option KeyNode → KeyNode)
    (h : ∀ o, f o = g o) : ∀ cs, updateA s f cs = updateA s g cs := by
  intro cs
  induction cs with
  | nil => simp only [updateA, h]
  | cons c rest ih =>
    obtain ⟨n, t⟩ := c
    simp only [updateA, h, ih]

/-- Two updates of the same key compose into one update. -/
theorem updateA_same (s : Chars) (f g : Option KeyNode → KeyNode) :
    ∀ cs, updateA s g (updateA s f cs) =
      updateA s (fun o => g (some (f o))) cs := by
  intro cs
  induction cs with
  | nil =>
    simp only [updateA, if_neg (lt_irrefl s), if_pos (Eq.refl s), if_true,
      eq_self_iff_true]
  | cons c rest ih =>
    obtain ⟨n, t⟩ := c
    rcases lt_trichotomy s n with h1 | h1 | h1
    · simp only [updateA, if_pos h1, if_neg (lt_irrefl s),
        if_pos (Eq.refl s), if_true, eq_self_iff_true]
    · subst h1
      simp only [updateA, if_neg (lt_irrefl s), if_pos (Eq.refl s),
        if_true, eq_self_iff_true]
    · simp only [updateA, if_neg (lt_asymm h1), if_neg (ne_of_gt h1)]
      rw [ih]

/-- Updates of different keys commute. -/
theorem updateA_comm (s₁ s₂ : Chars) (hne : s₁ ≠ s₂)
    (f₁ f₂ : Option KeyNode → KeyNode) :
    ∀ cs, updateA s₂ f₂ (updateA s₁ f₁ cs) =
      updateA s₁ f₁ (updateA s₂ f₂ cs) := by
  intro cs
  induction cs with
  | nil =>
    rcases lt_or_gt_of_ne hne with h | h
    · simp only [updateA, if_pos h, if_neg (lt_asymm h),
        if_neg (Ne.symm hne)]
    · simp only [updateA, if_pos h, if_neg (lt_asymm h), if_neg hne]
  | cons c rest ih =>
    obtain ⟨n, t⟩ := c
    rcases lt_trichotomy s₁ n with ha | ha | ha <;>
      rcases lt_trichotomy s₂ n with hb | hb | hb
    · rcases lt_or_gt_of_ne hne with h | h
      · simp only [updateA, if_pos ha, if_pos hb, if_pos h,
          if_neg (lt_asymm h), if_neg (Ne.symm hne)]
      · simp only [updateA, if_pos ha, if_pos hb, if_pos h,
          if_neg (lt_asymm h), if_neg hne]
    · subst hb
      simp only [updateA, if_pos ha, if_neg (lt_irrefl s₂),
        if_pos (Eq.refl s₂), if_neg (lt_asymm ha), if_neg (Ne.symm hne),
        if_true, eq_self_iff_true]
    · have h2 := lt_trans ha hb
      simp only [updateA, if_pos ha, if_neg (lt_asymm hb),
        if_neg (ne_of_gt hb), if_neg (lt_asymm h2), if_neg (ne_of_gt h2)]
    · subst ha
      simp only [updateA, if_pos hb, if_neg (lt_asymm hb), if_neg hne,
        if_neg (lt_irrefl s₁), if_pos (Eq.refl s₁), if_true,
        eq_self_iff_true]
    · exact absurd (ha.trans hb.symm) hne
    · subst ha
      simp only [updateA, if_neg (lt_asymm hb), if_neg (ne_of_gt hb),
        if_neg (lt_irrefl s₁), if_pos (Eq.refl s₁), if_true,
        eq_self_iff_true]
    · have h2 := lt_trans hb ha
      simp only [updateA, if_pos hb, if_neg (lt_asymm ha),
        if_neg (ne_of_gt ha), if_neg (lt_asymm h2), if_neg (ne_of_gt h2)]
    · subst hb
      simp only [updateA, if_neg (lt_irrefl s₂), if_pos (Eq.refl s₂),
        if_neg (lt_asymm ha), if_neg (ne_of_gt ha), if_true,
        eq_self_iff_true]
    · simp only [updateA, if_neg (lt_asymm ha), if_neg (ne_of_gt ha),
        if_neg (lt_asymm hb), if_neg (ne_of_gt hb)]
      rw [ih]

/-- Two trie insertions commute. -/
theorem insertParts_comm :
    ∀ (pa pb : List Chars) (t : KeyNode),
      insertParts (insertParts t pa) pb =
        insertParts (insertParts t pb) pa := by
  intro pa
  induction pa with
  | nil =>
    intro pb t
    cases pb with
    | nil =>
      cases t
      simp [insertParts]
    | cons s r =>
      cases t
      simp [insertParts]
  | cons s₁ r₁ ih =>
    intro pb t
    cases pb with
    | nil =>
      cases t
      simp [insertParts]
    | cons s₂ r₂ =>
      cases t with
      | node p k cs =>
        simp only [insertParts]
        by_cases hs : s₁ = s₂
        · subst hs
          rw [updateA_same, updateA_same]
          congr 1
          refine updateA_congr _ _ _ ?_ cs
          intro o
          simp only [Option.getD_some]
          exact ih r₂ _
        · rw [updateA_comm s₁ s₂ hs]

/-- A trie insertion is idempotent. -/
theorem insertParts_idem :
    ∀ (pa : List Chars) (t : KeyNode),
      insertParts (insertParts t pa) pa = insertParts t pa := by
  intro pa
  induction pa with
  | nil =>
    intro t
    cases t
    simp [insertParts]
  | cons s r ih =>
    intro t
    cases t with
    | node p k cs =>
      simp only [insertParts]
      rw [updateA_same]
      congr 1
      refine updateA_congr _ _ _ ?_ cs
      intro o
      simp only [Option.getD_some]
      exact ih _

/-- Re-inserting a key that is inserted again later is absorbed. -/
theorem foldl_insert_absorb :
    ∀ (l : List Chars) (kk : Chars) (t : KeyNode), kk ∈ l →
      l.foldl (fun acc k2 => insertParts acc (splitColon k2))
          (insertParts t (splitColon kk)) =
        l.foldl (fun acc k2 => insertParts acc (splitColon k2)) t := by
  intro l
  induction l with
  | nil =>
    intro kk t h
    simp at h
  | cons a l ih =>
    intro kk t h
    simp only [List.foldl_cons]
    rcases List.mem_cons.mp h with rfl | h2
    · rw [insertParts_idem]
    · rw [insertParts_comm (splitColon kk) (splitColon a) t]
      exact ih kk _ h2

/-- Building the trie ignores duplicate keys. -/
theorem foldl_insert_dedup :
    ∀ (l : List Chars) (t : KeyNode),
      l.foldl (fun acc k => insertParts acc (splitColon k)) t =
        l.dedup.foldl (fun acc k => insertParts acc (splitColon k)) t := by
  intro l
  induction l with
  | nil =>
    intro t
    rfl
  | cons a l ih =>
    intro t
    by_cases h : a ∈ l
    · rw [List.dedup_cons_of_mem h]
      simp only [List.foldl_cons]
      rw [foldl_insert_absorb l a t h]
      exact ih t
    · rw [List.dedup_cons_of_not_mem h]
      simp only [List.foldl_cons]
      exact ih _

/-- Building the trie is invariant under permutation of the key list. -/
theorem buildTrie_perm (l₁ l₂ : List Chars) (hp : l₁.Perm l₂) :
    buildTrie l₁ = buildTrie l₂ :=
  hp.foldl_eq'
    (fun x _ y _ z => insertParts_comm (splitColon x) (splitColon y) z)
    rootNode

/-- Building the trie is a pure function of the key set. -/
theorem buildTrie_set_eq (l₁ l₂ : List Chars)
    (h : ∀ a, a ∈ l₁ ↔ a ∈ l₂) : buildTrie l₁ = buildTrie l₂ := by
  have h1 : buildTrie l₁ = buildTrie l₁.dedup :=
    foldl_insert_dedup l₁ rootNode
  have h2 : buildTrie l₂ = buildTrie l₂.dedup :=
    foldl_insert_dedup l₂ rootNode
  have hperm : l₁.dedup.Perm l₂.dedup := by
    rw [List.perm_ext_iff_of_nodup (List.nodup_dedup l₁)
      (List.nodup_dedup l₂)]
    intro a
    rw [List.mem_dedup, List.mem_dedup]
    exact h a
  rw [h1, h2]
  exact buildTrie_perm _ _ hperm

/-- The empty root node is trivially sorted. -/
theorem rootNode_sorted : SortedNode rootNode :=
  SortedNode.mk [] false [] List.Pairwise.nil (by simp)

/-- Inserting at the `takeWhile` boundary splits the list around the new
element. -/
theorem insertIdx_takeWhile_length {α : Type} (p : α → Bool) (x : α)
    (l : List α) :
    l.insertIdx (l.takeWhile p).length x =
      l.takeWhile p ++ x :: l.dropWhile p := by
  induction l with
  | nil => rfl
  | cons a l ih =>
    by_cases h : p a <;>
      simp [List.takeWhile_cons, List.dropWhile_cons, h,
        List.insertIdx_succ_cons, ih]

/-- In a sorted list, the pivot relates to every element of the
`dropWhile` tail once it relates to every element failing the predicate. -/
theorem rel_of_mem_dropWhile {α : Type} (r : α → α → Prop)
    (htrans : ∀ a b c : α, r a b → r b c → r a c) (p : α → Bool) (x : α)
    (hq : ∀ a, p a = false → r x a) :
    ∀ l : List α, l.Pairwise r → ∀ b ∈ l.dropWhile p, r x b := by
  intro l
  induction l with
  | nil => simp
  | cons a l ih =>
    intro hl b hb
    by_cases h : p a
    · rw [List.dropWhile_cons_of_pos h] at hb
      exact ih (List.pairwise_cons.mp hl).2 b hb
    · rw [List.dropWhile_cons_of_neg h] at hb
      rcases List.mem_cons.mp hb with rfl | hb
      · exact hq b (by simpa using h)
      · exact htrans x a b (hq a (by simpa using h))
          ((List.pairwise_cons.mp hl).1 b hb)

/-- Inserting an element at the boundary of a partitioned sorted list
keeps it sorted, when the prefix sorts before the element and the element
sorts before the remainder. -/
theorem pairwise_insert_partition {α : Type} (r : α → α → Prop)
    (htrans : ∀ a b c : α, r a b → r b c → r a c) (p : α → Bool) (x : α)
    (hp : ∀ a, p a = true → r a x) (hq : ∀ a, p a = false → r x a)
    (l : List α) (hl : l.Pairwise r) :
    (l.takeWhile p ++ x :: l.dropWhile p).Pairwise r := by
  rw [List.pairwise_append]
  refine ⟨List.Pairwise.sublist (List.takeWhile_sublist p) hl, ?_, ?_⟩
  · rw [List.pairwise_cons]
    exact ⟨rel_of_mem_dropWhile r htrans p x hq l hl,
      List.Pairwise.sublist (List.dropWhile_sublist p) hl⟩
  · intro a ha b hb
    rcases List.mem_cons.mp hb with rfl | hb
    · exact hp a (List.mem_takeWhile_imp ha)
    · have hl2 := hl
      rw [← List.takeWhile_append_dropWhile p l] at hl2
      exact (List.pairwise_append.mp hl2).2.2 a ha b hb

/-- Replacing the first occurrence of a member in a buffer that splits
around that member rewrites exactly that entry. -/
theorem replaceFirstScore_append (v : String) (score s₀ : ℚ) :
    ∀ l₁ l₂ : List (String × ℚ), v ∉ l₁.map Prod.fst →
      replaceFirstScore (l₁ ++ (v, s₀) :: l₂) v score =
        l₁ ++ (v, score) :: l₂ := by
  intro l₁
  induction l₁ with
  | nil =>
    intro l₂ _
    simp [replaceFirstScore]
  | cons a l ih =>
    intro l₂ hnot
    simp only [List.map_cons, List.mem_cons, not_or] at hnot
    obtain ⟨ha, hl⟩ := hnot
    have hne : ¬ (a.1 = v) := fun hh => ha hh.symm
    simp only [List.cons_append, replaceFirstScore, if_neg hne,
      List.append_eq]
    rw [ih l₂ hl]

/-- C1: after a scan batch, a zero cursor sum marks the scan completed and
stops auto-continuation; a nonzero cursor sum auto-continues exactly when
the accumulated key count is strictly below `(scan_times + 1) * 1000`. -/
theorem scan_keys_callback_spec (st : ScanState) (cursors : List Nat)
    (found : List String) :
    (cursors.sum = 0 →
      (scan_keys_callback st (.ok (cursors, found))).1.scan_completed = true ∧
      (scan_keys_callback st (.ok (cursors, found))).2 = false) ∧
    (cursors.sum ≠ 0 →
      ((scan_keys_callback st (.ok (cursors, found))).2 = true ↔
        (extend_keys st.keys found).length < (st.scan_times + 1) * 1000)) := by
  constructor
  · intro h
    simp [scan_keys_callback, h]
  · intro h
    by_cases hlt :
        (extend_keys st.keys found).length < (st.scan_times + 1) * 1000 <;>
      simp [scan_keys_callback, h, hlt]

/-- Witness for `scan_keys_callback_spec` at a concrete input. -/
theorem scan_keys_callback_spec_witness :
    (scan_keys_callback ⟨"s", "", none, true, false, 0, []⟩
        (.ok ([0, 0], ["a"]))).1.scan_completed = true ∧
    (scan_keys_callback ⟨"s", "", none, true, false, 0, []⟩
        (.ok ([0, 0], ["a"]))).2 = false :=
  (scan_keys_callback_spec ⟨"s", "", none, true, false, 0, []⟩
    [0, 0] ["a"]).1 (by decide)

/-- C9: the dispatcher's completion step on an error logs an entry whose
category is the task name, keeps the log bounded by 10 by evicting the
oldest entry, and still hands the untouched error result to the callback. -/
theorem spawn_complete_error_spec {T : Type} (log : List ErrorMessage)
    (name e : String) (now : Nat) (hlen : log.length ≤ 10) :
    (@spawn_complete T log name (.error e) now).2 = .error e ∧
    (@spawn_complete T log name (.error e) now).1.getLast? =
      some ⟨name, e, now⟩ ∧
    (@spawn_complete T log name (.error e) now).1.length ≤ 10 ∧
    (log.length = 10 →
      (@spawn_complete T log name (.error e) now).1 =
        log.drop 1 ++ [⟨name, e, now⟩]) := by
  refine ⟨rfl, ?_, ?_, ?_⟩
  · simp [spawn_complete, add_error_message, List.getLast?_concat]
  · by_cases h : log.length ≥ 10 <;>
      simp [spawn_complete, add_error_message, h] <;> omega
  · intro h
    simp [spawn_complete, add_error_message, h]

/-- Witness for `spawn_complete_error_spec` at a concrete input: a full log
of 10 entries is rotated, the oldest entry is evicted. -/
theorem spawn_complete_error_spec_witness :
    (@spawn_complete Nat (List.replicate 10 ⟨"c", "m", 0⟩) "t" (.error "boom") 7).1 =
      List.replicate 9 ⟨"c", "m", 0⟩ ++ [⟨"t", "boom", 7⟩] := by
  have h := (spawn_complete_error_spec (T := Nat)
    (List.replicate 10 ⟨"c", "m", 0⟩) "t" "boom" 7 (by simp)).2.2.2 (by simp)
  simpa using h

/-- C8: a zero `SADD` added-count leaves the whole local set state
unchanged, and set/hash cardinalities grow exactly by the store-reported
count of genuinely new entries. -/
theorem add_value_count_spec (s : RedisSetValue) (h : RedisHashValue)
    (v f val : String) (count : Nat) :
    add_set_value_callback s v 0 = s ∧
    (add_set_value_callback s v count).size = s.size + count ∧
    (add_or_update_hash_value_callback h f val count).size =
      h.size + count := by
  refine ⟨rfl, ?_, rfl⟩
  by_cases hc : count = 0 <;> simp [add_set_value_callback, hc]

/-- C4 counterexample: removing a member that the store reports as not
removed (`ZREM` reply 0) still decrements the local zset cardinality,
because the callback discards the reply; a cardinality of 5 drops to 4
instead of staying `5 - 0 = 5`. -/
theorem remove_zset_ignores_count_counterexample :
    (remove_zset_value_callback
      ⟨5, [("a", 1), ("b", 2)], SortOrder.asc, none, 0, true⟩ "x").size = 4 ∧
    (remove_zset_value_callback
      ⟨5, [("a", 1), ("b", 2)], SortOrder.asc, none, 0, true⟩ "x").size ≠
      5 - 0 := by
  exact ⟨rfl, by decide⟩

/-- C4 amended: the hash removal callback follows the store-reported
removed-count exactly — a zero count leaves buffer and cardinality
unchanged, a nonzero count drops the field and subtracts the count — while
the zset removal callback ignores the reply, always dropping the member
from the buffer and decrementing the cardinality by exactly one. -/
theorem remove_value_callback_spec (h : RedisHashValue)
    (z : RedisZsetValue) (f v : String) (count : Nat) :
    remove_hash_value_callback h f 0 = h ∧
    (count ≠ 0 →
      (remove_hash_value_callback h f count).size = h.size - count ∧
      ∀ it, it ∈ (remove_hash_value_callback h f count).values ↔
        it ∈ h.values ∧ it.1 ≠ f) ∧
    ((remove_zset_value_callback z v).size = z.size - 1 ∧
      ∀ it, it ∈ (remove_zset_value_callback z v).values ↔
        it ∈ z.values ∧ it.1 ≠ v) := by
  refine ⟨rfl, ?_, rfl, ?_⟩
  · intro hc
    refine ⟨by simp [remove_hash_value_callback, hc], ?_⟩
    intro it
    simp [remove_hash_value_callback, hc, listRetain, List.mem_filter]
  · intro it
    simp [remove_zset_value_callback, listRetain, List.mem_filter]

/-- Witness for `remove_value_callback_spec` at a concrete input. -/
theorem remove_value_callback_spec_witness :
    (remove_hash_value_callback
      ⟨3, [("f1", "v1"), ("f2", "v2")], none, 0, true⟩ "f1" 1).size = 3 - 1 :=
  ((remove_value_callback_spec
    ⟨3, [("f1", "v1"), ("f2", "v2")], none, 0, true⟩
    ⟨0, [], SortOrder.asc, none, 0, false⟩ "f1" "m" 1).2.1 (by decide)).1

/-- C7: with an active keyword filter and a scan still in progress, a
load-more batch triggers exactly one automatic continuation precisely when
the returned cursor is nonzero and fewer than 50 entries have accumulated
in the buffer. -/
theorem load_more_filtered_continuation_spec (h : RedisHashValue)
    (s : RedisSetValue) (kw kw' : String) (c c' : Nat)
    (nv : List (String × String)) (nv' : List String)
    (hdone : h.done = false) (_hk : h.keyword = some kw)
    (sdone : s.done = false) (sk : s.keyword = some kw') (hkw : kw' ≠ "") :
    ((load_more_hash_step h c nv).2 = true ↔
      c ≠ 0 ∧ (load_more_hash_step h c nv).1.values.length < 50) ∧
    ((load_more_set_step s c' nv').2 = true ↔
      c' ≠ 0 ∧ (load_more_set_step s c' nv').1.values.length < 50) := by
  constructor
  · by_cases hc : c = 0 <;>
      simp [load_more_hash_step, hc, hdone]
  · have hkne : kw'.isEmpty = false := by
      rw [Bool.eq_false_iff]
      intro hh
      exact hkw ((String.isEmpty_iff kw').mp hh)
    by_cases hc : c' = 0 <;>
      simp [load_more_set_step, hc, sdone, sk, hkne]

/-- Witness for `load_more_filtered_continuation_spec` at a concrete
input: 10 matches with a nonzero cursor do trigger a continuation. -/
theorem load_more_filtered_continuation_spec_witness :
    (load_more_hash_step ⟨1000, [], some "kw", 3, false⟩ 17
      (List.replicate 10 ("f", "v"))).2 = true :=
  ((load_more_filtered_continuation_spec
    ⟨1000, [], some "kw", 3, false⟩ ⟨0, [], some "k", 0, false⟩
    "kw" "k" 17 0 (List.replicate 10 ("f", "v")) [] rfl rfl rfl rfl
    (by decide)).1).mpr (by constructor <;> decide)

/-- C10: when a new, non-filtered zset member's `partition_point` insertion
index equals the loaded-buffer length, the buffer is left unchanged (the
member is not appended) while the cardinality still grows by the reported
added-count. -/
theorem add_zset_value_at_end_spec (z : RedisZsetValue) (v : String)
    (score : ℚ) (count : Nat)
    (hnot : v ∉ z.values.map Prod.fst) (hkw : z.keyword = none)
    (hidx : partitionPoint (zsetBefore z.sort_order score) z.values =
      z.values.length) :
    (add_or_update_zset_value_callback z v score count).values = z.values ∧
    (add_or_update_zset_value_callback z v score count).size =
      z.size + count := by
  have hany : z.values.any (fun it => it.1 == v) = false := by
    rw [List.any_eq_false]
    intro it hit
    simp only [beq_iff_eq]
    intro hh
    exact hnot (List.mem_map.mpr ⟨it, hit, hh⟩)
  constructor <;>
    simp [add_or_update_zset_value_callback, hany, hkw, hidx]

/-- Witness for `add_zset_value_at_end_spec` at a concrete input: the new
member sorts after every loaded entry, nothing is appended. -/
theorem add_zset_value_at_end_spec_witness :
    (add_or_update_zset_value_callback
      ⟨2, [("a", 1), ("b", 2)], SortOrder.asc, none, 0, false⟩
      "c" 9 1).values = [("a", 1), ("b", 2)] ∧
    (add_or_update_zset_value_callback
      ⟨2, [("a", 1), ("b", 2)], SortOrder.asc, none, 0, false⟩
      "c" 9 1).size = 2 + 1 :=
  add_zset_value_at_end_spec
    ⟨2, [("a", 1), ("b", 2)], SortOrder.asc, none, 0, false⟩
    "c" 9 1 (by decide) rfl (by decide)

/-- C2 counterexample: with no key configured and a password configured
the code engages password authentication only and never touches the SSH
agent, so the claimed attempt order (agent before password) is wrong; and
with neither key nor password configured the unix branch proceeds to agent
authentication — here even succeeding — instead of returning a hard
configuration error. -/
theorem ssh_auth_order_counterexample :
    (new_ssh_session "" "pw"
      ⟨false, true, true, true, true, true, [⟨false, .failure⟩]⟩).2 =
      [AuthMethod.password] ∧
    spec_auth_attempt_order "" "pw" false true ≠ [AuthMethod.password] ∧
    (new_ssh_session "" ""
      ⟨false, true, true, true, true, true, [⟨false, .success⟩]⟩).1 =
      .ok () := by
  refine ⟨rfl, by decide, rfl⟩

/-- C2 amended: exactly one authentication mechanism is engaged, selected
by configuration precedence — public key when a key string is configured
(from disk when it names an existing file, else inline), otherwise
password when configured, otherwise the SSH agent on unix (succeeding
exactly when the agent is reachable and some identity authenticates) — and
on non-unix platforms the absence of key and password is a hard
configuration error; no fallback between mechanisms occurs. -/
theorem new_ssh_session_spec (key password : String) (env : SshEnv) :
    (key ≠ "" →
      (new_ssh_session key password env).2 =
        [if env.key_is_file then AuthMethod.publickeyFile
         else AuthMethod.publickeyInline]) ∧
    (key = "" → password ≠ "" →
      (new_ssh_session key password env).2 = [AuthMethod.password]) ∧
    (key = "" → password = "" → env.unix = false →
      new_ssh_session key password env =
        (.error (.invalid "Ssh agent is not supported on this platform"),
          [])) ∧
    (key = "" → password = "" → env.unix = true →
      (new_ssh_session key password env).2 = [AuthMethod.agent] ∧
      ((new_ssh_session key password env).1 = .ok () ↔
        env.agent_connect_ok = true ∧
        env.identities.any
          (fun i => i.outcome == AgentOutcome.success) = true)) := by
  refine ⟨?_, ?_, ?_, ?_⟩
  · intro hkey
    by_cases hl : env.key_load_ok = false <;>
      by_cases hp : env.publickey_ok <;>
      simp [new_ssh_session, hkey, hl, hp]
  · intro hkey hpw
    by_cases hp : env.password_ok <;>
      simp [new_ssh_session, hkey, hpw, hp]
  · intro hkey hpw hunix
    simp [new_ssh_session, hkey, hpw, hunix]
  · intro hkey hpw hunix
    by_cases hconn : env.agent_connect_ok = false
    · simp [new_ssh_session, hkey, hpw, hunix, hconn]
    · by_cases hsucc : env.identities.any
          (fun i => i.outcome == AgentOutcome.success) = true
      · simp [new_ssh_session, hkey, hpw, hunix, hconn, hsucc]
      · by_cases hfail : env.identities.any
            (fun i => i.outcome == AgentOutcome.failure) = true <;>
          simp [new_ssh_session, hkey, hpw, hunix, hconn, hsucc, hfail]

/-- Witness for `new_ssh_session_spec` at a concrete input: a configured
key selects public-key authentication alone. -/
theorem new_ssh_session_spec_witness :
    (new_ssh_session "id_rsa" "pw"
      ⟨true, true, true, true, true, true, []⟩).2 =
      [AuthMethod.publickeyFile] := by
  have h := (new_ssh_session_spec "id_rsa" "pw"
    ⟨true, true, true, true, true, true, []⟩).1 (by decide)
  simpa using h

/-- C3 (evaluation at the failing input): on a 150-element list the first
load issues `LRANGE key 0 100` and receives 101 entries — one more than
the claimed page bound of 100 — and the following load-more issues
`LRANGE key 101 100`, an empty range, so the buffer does not grow. -/
theorem list_page_exceeds_100 :
    (first_load_list (List.replicate 150 "x")).2.length = 101 ∧
    load_more_list_step 150 (first_load_list (List.replicate 150 "x")).2
      (List.replicate 150 "x") =
      (first_load_list (List.replicate 150 "x")).2 := by
  exact ⟨rfl, rfl⟩

/-- C6: for a sorted, non-filtered zset buffer, adding a member that is
not loaded inserts at the binary-search position and keeps the buffer
sorted by the active order, while adding a member that is loaded replaces
its entry in place. -/
theorem add_zset_value_sorted_spec (z : RedisZsetValue) (v : String)
    (score : ℚ) (count : Nat) (hs : zsetSorted z.sort_order z.values) :
    (v ∉ z.values.map Prod.fst → z.keyword = none →
      zsetSorted z.sort_order
        (add_or_update_zset_value_callback z v score count).values) ∧
    (∀ l₁ l₂ s₀, z.values = l₁ ++ (v, s₀) :: l₂ → v ∉ l₁.map Prod.fst →
      (add_or_update_zset_value_callback z v score count).values =
        l₁ ++ (v, score) :: l₂) := by
  have hx : ∀ o, zsetSorted o z.values →
      zsetSorted o (z.values.insertIdx
        (partitionPoint (zsetBefore o score) z.values) (v, score)) := by
    intro o ho
    rw [partitionPoint, insertIdx_takeWhile_length]
    cases o with
    | asc =>
      refine pairwise_insert_partition _ ?_ _ _ ?_ ?_ _ ho
      · intro a b c hab hbc
        exact le_trans hab hbc
      · intro a ha
        simp [zsetBefore] at ha
        exact le_of_lt ha
      · intro a ha
        simp [zsetBefore] at ha
        exact ha
    | desc =>
      refine pairwise_insert_partition _ ?_ _ _ ?_ ?_ _ ho
      · intro a b c hab hbc
        exact le_trans hbc hab
      · intro a ha
        simp [zsetBefore] at ha
        exact le_of_lt ha
      · intro a ha
        simp [zsetBefore] at ha
        exact ha
  constructor
  · intro hnot hkw
    have hany : z.values.any (fun it => it.1 == v) = false := by
      rw [List.any_eq_false]
      intro it hit
      simp only [beq_iff_eq]
      intro hh
      exact hnot (List.mem_map.mpr ⟨it, hit, hh⟩)
    by_cases hidx : partitionPoint (zsetBefore z.sort_order score)
        z.values = z.values.length
    · simpa [add_or_update_zset_value_callback, hany, hkw, hidx] using hs
    · have h2 := hx z.sort_order hs
      simpa [add_or_update_zset_value_callback, hany, hkw, hidx] using h2
  · intro l₁ l₂ s₀ hsplit hnotl₁
    have hany : z.values.any (fun it => it.1 == v) = true := by
      rw [List.any_eq_true]
      refine ⟨(v, s₀), ?_, by simp⟩
      rw [hsplit]
      simp
    simp only [add_or_update_zset_value_callback, hany]
    simp only [if_pos trivial]
    rw [hsplit, replaceFirstScore_append v score s₀ l₁ l₂ hnotl₁]

/-- Witness for `add_zset_value_sorted_spec` at a concrete input: the new
member lands between the two loaded entries and the buffer stays sorted. -/
theorem add_zset_value_sorted_spec_witness :
    zsetSorted SortOrder.asc
      (add_or_update_zset_value_callback
        ⟨2, [("a", 1), ("b", 3)], SortOrder.asc, none, 0, false⟩
        "c" 2 1).values := by
  have hs : zsetSorted SortOrder.asc [("a", (1 : ℚ)), ("b", 3)] := by
    simp only [zsetSorted]
    decide
  exact (add_zset_value_sorted_spec
    ⟨2, [("a", 1), ("b", 3)], SortOrder.asc, none, 0, false⟩
    "c" 2 1 hs).1 (by decide) rfl

/-- C5: building the key trie is a pure function of the flat key set —
invariant under insertion order and duplicates — and flattening it back,
by concatenating the path segments of every node marked as a real key
with the `:` delimiter, reproduces exactly the original key set. -/
theorem key_tree_round_trip_spec (keys keys₂ : List Chars) :
    ((∀ a, a ∈ keys ↔ a ∈ keys₂) → buildTrie keys = buildTrie keys₂) ∧
    (∀ x, x ∈ flattenKeys (buildTrie keys) ↔ x ∈ keys) := by
  constructor
  · exact buildTrie_set_eq keys keys₂
  · intro x
    rw [flattenKeys, List.mem_map]
    constructor
    · rintro ⟨pth, hp, rfl⟩
      simp only [buildTrie] at hp
      rcases (keyPaths_foldl keys rootNode rootNode_sorted pth).mp hp with
        ⟨k, hk, rfl⟩ | hx
      · rw [splitColon, List.intercalate_splitOn]
        exact hk
      · rw [rootNode] at hx
        simp [keyPaths, keyPathsChildren] at hx
    · intro hx
      refine ⟨splitColon x, ?_, ?_⟩
      · simp only [buildTrie]
        exact (keyPaths_foldl keys rootNode rootNode_sorted
          (splitColon x)).mpr (Or.inl ⟨x, hx, rfl⟩)
      · rw [splitColon]
        exact List.intercalate_splitOn x ':'

/-- Witness for `key_tree_round_trip_spec` at concrete inputs: the trie of
a reordered, duplicated key list is identical, and a key round-trips
through the trie. -/
theorem key_tree_round_trip_spec_witness :
    buildTrie [['a'], ['b', ':', 'c']] =
      buildTrie [['b', ':', 'c'], ['a'], ['b', ':', 'c']] ∧
    (['a', ':', 'b'] ∈ flattenKeys (buildTrie [['a', ':', 'b'], ['c']]) ↔
      ['a', ':', 'b'] ∈ [['a', ':', 'b'], ['c']]) :=
  ⟨(key_tree_round_trip_spec [['a'], ['b', ':', 'c']]
      [['b', ':', 'c'], ['a'], ['b', ':', 'c']]).1
    (by
      intro a
      simp only [List.mem_cons, List.not_mem_nil, or_false]
      tauto),
   (key_tree_round_trip_spec [['a', ':', 'b'], ['c']] []).2 ['a', ':', 'b']⟩

end Zedis
